import Mathlib

/-!
Verification of the room-based signaling coordinator and the peer-session
clients of the webrtc-object-detection application.

The coordinator (backend signaling server) keeps a `Map` from room codes to
the `Set` of socket ids currently joined, and relays `offer` / `answer` /
`ice-candidate` payloads with `socket.to(roomId).emit(...)`, which delivers
to every socket currently in the socket.io room `roomId` except the sender.
`socket.join` and the bookkeeping `Map` are updated together on `join-room`,
and both memberships are removed together on `disconnect`, so a single
association list `ServerState` models both.  JS `Map` preserves insertion
order and `Set.add` appends a fresh element at the end, which the
association-list/`List` encoding reproduces.
-/

/-- Socket (participant) identifier, assigned by the transport. -/
abbrev SId := Nat

/-- Room code: an opaque string, used verbatim as the `Map` key. -/
abbrev RoomId := String

/-- The coordinator's state: the `rooms` Map, room code to member set,
in insertion order. -/
abbrev ServerState := List (RoomId × List SId)

/-- Kinds of relayed signaling messages. -/
inductive MsgKind where
  | offer
  | answer
  | candidate
deriving DecidableEq, Repr

/-- A message emitted by the server to one client: either a relayed payload
(`socket.to(roomId).emit('offer'/'answer'/'ice-candidate', payload)`), or a
membership notification (`user-joined` / `user-left`, carrying a socket id).
`α` is the opaque payload type (the server never inspects payloads). -/
inductive OutMsg (α : Type) where
  | relayed (kind : MsgKind) (payload : α)
  | peerJoined (who : SId)
  | peerLeft (who : SId)
deriving DecidableEq, Repr

/-- `rooms.get(r)`, `none` when the key is absent. -/
def findRoom : ServerState → RoomId → Option (List SId)
  | [], _ => none
  | (r', ms) :: rest, r => if r' = r then some ms else findRoom rest r

/-- The member list of room `r` (empty when the room does not exist). -/
def membersOf (st : ServerState) (r : RoomId) : List SId :=
  (findRoom st r).getD []

/-- JS `Set.add`: append unless already present. -/
def addMember (ms : List SId) (s : SId) : List SId :=
  if s ∈ ms then ms else ms ++ [s]

/-- `join-room` handler, state part: create the room if absent, then add the
socket to its member set. -/
def joinRoom : ServerState → SId → RoomId → ServerState
  | [], s, r => [(r, [s])]
  | (r', ms) :: rest, s, r =>
    if r' = r then (r', addMember ms s) :: rest
    else (r', ms) :: joinRoom rest s r

/-- `join-room` handler, output part: `socket.to(roomId).emit('user-joined',
socket.id)` runs after `socket.join(roomId)`, so it reaches every member of
the room after the join, except the joining socket itself. -/
def joinNotifs (α : Type) (st : ServerState) (s : SId) (r : RoomId) :
    List (SId × OutMsg α) :=
  ((membersOf (joinRoom st s r) r).filter (fun m => m != s)).map
    (fun m => (m, OutMsg.peerJoined s))

/-- `offer` / `answer` / `ice-candidate` handler:
`socket.to(roomId).emit(kind, payload)` delivers the payload verbatim to
every socket currently in room `roomId` except the sender — whether or not
the sender is itself a member. -/
def relayOut (st : ServerState) (s : SId) (r : RoomId) (k : MsgKind)
    (p : α) : List (SId × OutMsg α) :=
  ((membersOf st r).filter (fun m => m != s)).map
    (fun m => (m, OutMsg.relayed k p))

/-- `disconnect` handler, state part: for each room containing the socket,
remove it; delete the room when its member set becomes empty. -/
def disconnectState : ServerState → SId → ServerState
  | [], _ => []
  | (r, ms) :: rest, s =>
    if s ∈ ms then
      if ms.erase s = [] then disconnectState rest s
      else (r, ms.erase s) :: disconnectState rest s
    else (r, ms) :: disconnectState rest s

/-- `disconnect` handler, output part: for each room the socket was in,
`socket.to(roomId).emit('user-left', socket.id)` reaches the remaining
members of that room. -/
def disconnectNotifs (α : Type) : ServerState → SId → List (SId × OutMsg α)
  | [], _ => []
  | (_, ms) :: rest, s =>
    if s ∈ ms then
      (ms.erase s).map (fun m => (m, OutMsg.peerLeft s)) ++ disconnectNotifs α rest s
    else disconnectNotifs α rest s

/-- The `/rooms` diagnostic endpoint: per room code, the member count. -/
def roomSnapshot (st : ServerState) : List (RoomId × Nat) :=
  st.map (fun e => (e.1, e.2.length))

/-- State-changing coordinator events (relays leave the state unchanged). -/
inductive SrvEvent where
  | join (s : SId) (r : RoomId)
  | disconnect (s : SId)
deriving DecidableEq, Repr

/-- One coordinator step, state part. -/
def stepState (st : ServerState) : SrvEvent → ServerState
  | .join s r => joinRoom st s r
  | .disconnect s => disconnectState st s

/-- Run the coordinator from a given state. -/
def runFrom (st : ServerState) (evs : List SrvEvent) : ServerState :=
  evs.foldl stepState st

/-- Run the coordinator from its initial (empty) state. -/
def runServer (evs : List SrvEvent) : ServerState :=
  runFrom [] evs

/-- Well-formedness of the coordinator state: room keys are distinct (JS
`Map`), no member list is empty, and member lists are duplicate-free (JS
`Set`). -/
def WF (st : ServerState) : Prop :=
  (st.map Prod.fst).Nodup ∧ ∀ e ∈ st, e.2 ≠ [] ∧ e.2.Nodup

/-- Reference definition following the spec's words, for the membership
refinement claim: starting from membership flag `b`, a participant is a
member of a room exactly when it has joined it and not subsequently
disconnected. -/
def memberSpecFrom (b : Bool) (evs : List SrvEvent) (s : SId) (r : RoomId) : Bool :=
  match evs with
  | [] => b
  | .join s' r' :: rest =>
    memberSpecFrom (if s' = s ∧ r' = r then true else b) rest s r
  | .disconnect s' :: rest =>
    memberSpecFrom (if s' = s then false else b) rest s r

/-- Reference definition following the spec's words: `s` has joined `r` and
not subsequently disconnected. -/
def memberSpec (evs : List SrvEvent) (s : SId) (r : RoomId) : Bool :=
  memberSpecFrom false evs s r

/-!
Peer Session Clients.  Each browser participant owns one
`RTCPeerConnection`.  The state below records whether the connection object
exists (`pcInit`, i.e. `peerConnectionRef.current !== null`), whether a
local offer has been produced by `createOffer`/`setLocalDescription`
(`localOfferPending`), whether `setRemoteDescription` has succeeded
(`remoteDescSet`), the FIFO queue of pending candidates
(`pendingIceCandidatesRef`, `buffer`), and the arguments of every
`addIceCandidate` call made so far, in call order (`applied`).

WebRTC semantics used by the embedding: `setRemoteDescription(answer)`
rejects (the surrounding `catch` swallows the error and the remote
description stays unset) unless a local offer is pending; this is the
"answer arrives before an offer was ever sent" negotiation error.
`C` is the opaque candidate payload type.
-/

/-- Client-side peer-session state. -/
structure PeerState (C : Type) where
  pcInit : Bool
  localOfferPending : Bool
  remoteDescSet : Bool
  buffer : List C
  applied : List C
deriving DecidableEq, Repr

/-- Freshly mounted client: no connection, nothing queued or applied. -/
def initPeer (C : Type) : PeerState C :=
  ⟨false, false, false, [], []⟩

/-- Events of the `DesktopViewer` client (it never calls `createOffer`). -/
inductive DVEvent (C : Type) where
  | joinClick
  | recvOffer
  | recvAnswer
  | recvCandidate (c : C)
deriving DecidableEq, Repr

/-- One `DesktopViewer` transition.
* `joinClick`: `joinRoom()` pre-initializes the peer connection.
* `recvOffer`: the `offer` handler creates the connection if absent, sets
  the remote description, answers, then drains `pendingIceCandidatesRef`
  in FIFO order into `addIceCandidate`.
* `recvAnswer`: the `answer` handler calls `setRemoteDescription(answer)`;
  with no pending local offer this rejects and the `catch` leaves the
  state unchanged.
* `recvCandidate`: the `ice-candidate` handler applies the candidate only
  when the connection exists and its remote description is set; otherwise
  it pushes the candidate onto `pendingIceCandidatesRef`. -/
def dvStep (st : PeerState C) : DVEvent C → PeerState C
  | .joinClick => { st with pcInit := true }
  | .recvOffer =>
    { st with pcInit := true, remoteDescSet := true,
              applied := st.applied ++ st.buffer, buffer := [] }
  | .recvAnswer =>
    if st.pcInit ∧ st.localOfferPending then { st with remoteDescSet := true } else st
  | .recvCandidate c =>
    if st.pcInit ∧ st.remoteDescSet then { st with applied := st.applied ++ [c] }
    else { st with buffer := st.buffer ++ [c] }

/-- Run the `DesktopViewer` client from its initial state. -/
def dvRun (C : Type) (evs : List (DVEvent C)) : PeerState C :=
  evs.foldl dvStep (initPeer C)

/-- Events of the buffering `CameraCapture` client variants (the mobile
side: it creates the offer and receives the answer). -/
inductive MCEvent (C : Type) where
  | startCamera
  | sendOffer
  | recvAnswer
  | recvCandidate (c : C)
deriving DecidableEq, Repr

/-- One transition of the buffering `CameraCapture` variants.
* `startCamera`: `initializePeerConnection()`.
* `sendOffer`: `createOffer` + `setLocalDescription` (needs a connection).
* `recvAnswer`: the `answer` handler sets the remote description and then
  drains `pendingIceCandidatesRef` FIFO into `addIceCandidate`; if
  `setRemoteDescription` rejects (no pending local offer), the `catch`
  skips the drain and the state is unchanged.
* `recvCandidate`: apply when the remote description is set, else queue. -/
def mcStep (st : PeerState C) : MCEvent C → PeerState C
  | .startCamera => { st with pcInit := true }
  | .sendOffer => if st.pcInit then { st with localOfferPending := true } else st
  | .recvAnswer =>
    if st.pcInit ∧ st.localOfferPending then
      { st with remoteDescSet := true,
                applied := st.applied ++ st.buffer, buffer := [] }
    else st
  | .recvCandidate c =>
    if st.pcInit ∧ st.remoteDescSet then { st with applied := st.applied ++ [c] }
    else { st with buffer := st.buffer ++ [c] }

/-- Run a buffering `CameraCapture` client from its initial state. -/
def mcRun (C : Type) (evs : List (MCEvent C)) : PeerState C :=
  evs.foldl mcStep (initPeer C)

/-- Events of the first `CameraCapture` variant; `WebRTCManager` exposes the
same candidate handling through `handleIceCandidate`. -/
inductive CCEvent (C : Type) where
  | startCamera
  | sendOffer
  | recvAnswer
  | recvCandidate (c : C)
deriving DecidableEq, Repr

/-- One transition of the first `CameraCapture` variant (no candidate
queue): its `ice-candidate` handler calls `addIceCandidate(candidate)`
whenever the peer connection exists, without consulting the remote
description and without any buffering; `WebRTCManager.handleIceCandidate`
does the same. -/
def ccStep (st : PeerState C) : CCEvent C → PeerState C
  | .startCamera => { st with pcInit := true }
  | .sendOffer => if st.pcInit then { st with localOfferPending := true } else st
  | .recvAnswer =>
    if st.pcInit ∧ st.localOfferPending then { st with remoteDescSet := true } else st
  | .recvCandidate c =>
    if st.pcInit then { st with applied := st.applied ++ [c] } else st

/-- Run the non-buffering `CameraCapture` client from its initial state. -/
def ccRun (C : Type) (evs : List (CCEvent C)) : PeerState C :=
  evs.foldl ccStep (initPeer C)

/-!
Detection worker (`detection-worker.ts`).  `I` is the opaque image payload,
`D` the opaque detection record.  ONNX inference is an external effect; it
is modelled by an `outcome` parameter: `some ds` when `session.run`
succeeds with detections `ds`, `none` when it throws (the `catch` inside
`runRealInference` then returns `[]`).  `session` is non-null exactly when
`isInitialized` is true (both are set together in `initializeModel`).
-/

/-- An input frame posted to the worker with `type: 'process-frame'`. -/
structure FrameIn (I : Type) where
  frame_id : String
  capture_ts : Nat
  recv_ts : Nat
  imageData : I
deriving DecidableEq, Repr

/-- The payload of a `detection-result` message. -/
structure FrameMsg (D : Type) where
  frame_id : String
  capture_ts : Nat
  recv_ts : Nat
  inference_ts : Nat
  detections : List D
deriving DecidableEq, Repr

/-- A message posted by the worker back to the main thread in response to a
`process-frame` request. -/
inductive WorkerMsg (D : Type) where
  | detectionResult (m : FrameMsg D)
  | workerError (err : String) (frame_id : String)
deriving DecidableEq, Repr

/-- `runRealInference`: throws when the model is not initialized; otherwise
its internal `try`/`catch` turns any inference failure into `[]`. -/
def runRealInference (D : Type) (isInitialized : Bool)
    (outcome : Option (List D)) : Except String (List D) :=
  if isInitialized then .ok (outcome.getD [])
  else .error "ONNX model not initialized"

/-- `processFrame`: runs inference and wraps the result, preserving
`frame_id`, `capture_ts` and `recv_ts`; its `catch` branch returns the same
envelope with an empty detection list. -/
def processFrame (isInitialized : Bool) (outcome : Option (List D))
    (now : Nat) (f : FrameIn I) : FrameMsg D :=
  match runRealInference D isInitialized outcome with
  | .ok ds => ⟨f.frame_id, f.capture_ts, f.recv_ts, now, ds⟩
  | .error _ => ⟨f.frame_id, f.capture_ts, f.recv_ts, now, []⟩

/-- The `process-frame` branch of the worker's `self.onmessage`: reply with
an `error` message carrying the frame id when the model is not initialized,
otherwise with one `detection-result`; every throw is caught, so exactly
the returned messages are posted. -/
def onProcessFrame (D : Type) (isInitialized : Bool)
    (outcome : Option (List D)) (now : Nat) (f : FrameIn I) :
    List (WorkerMsg D) :=
  if isInitialized then
    [WorkerMsg.detectionResult (processFrame isInitialized outcome now f)]
  else
    [WorkerMsg.workerError "Model not initialized. Call init first." f.frame_id]

theorem findRoom_joinRoom (st : ServerState) (s : SId) (r r' : RoomId) :
    findRoom (joinRoom st s r) r'
      = if r' = r then some (addMember (membersOf st r) s) else findRoom st r' := by
  induction st with
  | nil =>
    by_cases h : r' = r
    · subst h
      simp [joinRoom, findRoom, membersOf, addMember]
    · simp [joinRoom, findRoom, membersOf, h, Ne.symm h]
  | cons e rest ih =>
    obtain ⟨r₀, ms₀⟩ := e
    by_cases h0 : r₀ = r
    · subst h0
      by_cases h1 : r' = r₀
      · subst h1
        simp [joinRoom, findRoom, membersOf]
      · simp [joinRoom, findRoom, membersOf, h1, Ne.symm h1]
    · by_cases h1 : r' = r₀
      · subst h1
        simp [joinRoom, findRoom, Ne.symm h0, h0]
      · have hstep : findRoom (joinRoom ((r₀, ms₀) :: rest) s r) r'
            = findRoom (joinRoom rest s r) r' := by
          simp [joinRoom, findRoom, h0, Ne.symm h1]
        rw [hstep, ih]
        by_cases h2 : r' = r
        · simp [h2, membersOf, findRoom, h0]
        · simp [h2, findRoom, Ne.symm h1]

theorem membersOf_joinRoom (st : ServerState) (s : SId) (r r' : RoomId) :
    membersOf (joinRoom st s r) r'
      = if r' = r then addMember (membersOf st r) s else membersOf st r' := by
  by_cases h : r' = r <;> simp [membersOf, findRoom_joinRoom, h]

theorem findRoom_mem {st : ServerState} {r : RoomId} {ms : List SId}
    (h : findRoom st r = some ms) : (r, ms) ∈ st := by
  induction st with
  | nil => simp [findRoom] at h
  | cons e rest ih =>
    obtain ⟨r₀, ms₀⟩ := e
    by_cases h0 : r₀ = r
    · subst h0
      simp [findRoom] at h
      simp [h]
    · simp [findRoom, h0] at h
      exact List.mem_cons_of_mem _ (ih h)

theorem mem_findRoom_of_keysNodup {st : ServerState} {r : RoomId} {ms : List SId}
    (hk : (st.map Prod.fst).Nodup) (h : (r, ms) ∈ st) : findRoom st r = some ms := by
  induction st with
  | nil => simp at h
  | cons e rest ih =>
    obtain ⟨r₀, ms₀⟩ := e
    simp at hk
    rcases List.mem_cons.mp h with h | h
    · rw [Prod.mk.injEq] at h
      simp [findRoom, h.1.symm, h.2]
    · have hne : r₀ ≠ r := by
        intro he
        subst he
        exact hk.1 ms h
      simp [findRoom, hne]
      exact ih hk.2 h

theorem findRoom_disconnectState {st : ServerState} (s : SId) (r : RoomId)
    (hk : (st.map Prod.fst).Nodup) :
    findRoom (disconnectState st s) r
      = match findRoom st r with
        | none => none
        | some ms =>
          if s ∈ ms then (if ms.erase s = [] then none else some (ms.erase s))
          else some ms := by
  induction st with
  | nil => simp [disconnectState, findRoom]
  | cons e rest ih =>
    obtain ⟨r₀, ms₀⟩ := e
    simp at hk
    by_cases h0 : r₀ = r
    · subst h0
      by_cases hs : s ∈ ms₀
      · by_cases he : ms₀.erase s = []
        · simp only [disconnectState, if_pos hs, if_pos he, findRoom, if_pos rfl]
          have : findRoom (disconnectState rest s) r₀ = none := by
            rw [ih hk.2]
            have : findRoom rest r₀ = none := by
              cases hfind : findRoom rest r₀ with
              | none => rfl
              | some ms' =>
                exact absurd (findRoom_mem hfind) (hk.1 ms')
            simp [this]
          simp [this, hs, he]
        · simp [disconnectState, hs, he, findRoom]
      · simp [disconnectState, hs, findRoom]
    · by_cases hs : s ∈ ms₀
      · by_cases he : ms₀.erase s = []
        · simp [disconnectState, hs, he, findRoom, h0, ih hk.2]
        · simp [disconnectState, hs, he, findRoom, h0, ih hk.2]
      · simp [disconnectState, hs, findRoom, h0, ih hk.2]

theorem membersOf_disconnectState {st : ServerState} (s : SId) (r : RoomId)
    (hk : (st.map Prod.fst).Nodup) :
    membersOf (disconnectState st s) r = (membersOf st r).erase s := by
  rw [membersOf, findRoom_disconnectState s r hk]
  cases hfind : findRoom st r with
  | none => simp [membersOf, hfind]
  | some ms =>
    by_cases hs : s ∈ ms
    · by_cases he : ms.erase s = [] <;> simp [membersOf, hfind, hs, he]
    · simp [membersOf, hfind, hs, List.erase_of_not_mem hs]

theorem keys_joinRoom (st : ServerState) (s : SId) (r : RoomId) :
    (joinRoom st s r).map Prod.fst
      = if (findRoom st r).isSome then st.map Prod.fst else st.map Prod.fst ++ [r] := by
  induction st with
  | nil => simp [joinRoom, findRoom]
  | cons e rest ih =>
    obtain ⟨r₀, ms₀⟩ := e
    by_cases h0 : r₀ = r
    · subst h0
      simp [joinRoom, findRoom]
    · simp [joinRoom, findRoom, h0, ih]
      by_cases hfind : (findRoom rest r).isSome <;> simp [hfind]

theorem keys_disconnectState_sublist (st : ServerState) (s : SId) :
    ((disconnectState st s).map Prod.fst).Sublist (st.map Prod.fst) := by
  induction st with
  | nil => simp [disconnectState]
  | cons e rest ih =>
    obtain ⟨r₀, ms₀⟩ := e
    by_cases hs : s ∈ ms₀
    · by_cases he : ms₀.erase s = []
      · simp only [disconnectState, if_pos hs, if_pos he]
        exact ih.trans (List.sublist_cons_self _ _)
      · simp only [disconnectState, if_pos hs, if_neg he, List.map_cons]
        exact ih.cons₂ _
    · simp only [disconnectState, if_neg hs, List.map_cons]
      exact ih.cons₂ _

theorem WF_empty : WF [] := by
  constructor
  · simp
  · intro e he
    simp at he

theorem WF_joinRoom {st : ServerState} (h : WF st) (s : SId) (r : RoomId) :
    WF (joinRoom st s r) := by
  obtain ⟨hk, hm⟩ := h
  constructor
  · rw [keys_joinRoom]
    cases hfind : findRoom st r with
    | some ms => simpa using hk
    | none =>
      simp only [hfind, Option.isSome_none, Bool.false_eq_true, if_false]
      rw [List.nodup_append]
      refine ⟨hk, List.nodup_singleton r, ?_⟩
      intro a ha hb
      simp at hb
      subst hb
      obtain ⟨⟨r', ms'⟩, hmem, he⟩ := List.mem_map.mp ha
      simp at he
      subst he
      exact absurd (mem_findRoom_of_keysNodup hk hmem) (by simp [hfind])
  · intro e he
    induction st with
    | nil =>
      simp [joinRoom] at he
      subst he
      simp [addMember]
    | cons e₀ rest ih =>
      obtain ⟨r₀, ms₀⟩ := e₀
      by_cases h0 : r₀ = r
      · subst h0
        simp [joinRoom] at he
        rcases he with he | he
        · subst he
          have hms := hm (r₀, ms₀) (by simp)
          constructor
          · unfold addMember
            by_cases hmem : s ∈ ms₀ <;> simp [hmem, hms.1]
          · unfold addMember
            by_cases hmem : s ∈ ms₀
            · simp [hmem, hms.2]
            · simp [hmem]
              exact List.Nodup.append hms.2 (List.nodup_singleton s)
                (by simp [List.disjoint_singleton, hmem])
        · exact hm e (List.mem_cons_of_mem _ he)
      · simp [joinRoom, h0] at he
        rcases he with he | he
        · subst he
          exact hm (r₀, ms₀) (by simp)
        · have hk' : ((rest.map Prod.fst : List RoomId)).Nodup := by
            simp at hk
            exact hk.2
          exact ih hk' (fun e' he' => hm e' (List.mem_cons_of_mem _ he')) he


theorem mem_disconnectState {st : ServerState} {s : SId} {e : RoomId × List SId}
    (he : e ∈ disconnectState st s) :
    ∃ ms₀, (e.1, ms₀) ∈ st ∧
      ((s ∉ ms₀ ∧ e.2 = ms₀) ∨ (s ∈ ms₀ ∧ e.2 = ms₀.erase s ∧ e.2 ≠ [])) := by
  induction st with
  | nil => simp [disconnectState] at he
  | cons e₀ rest ih =>
    obtain ⟨r₀, ms₀⟩ := e₀
    by_cases hs : s ∈ ms₀
    · by_cases hemp : ms₀.erase s = []
      · simp only [disconnectState, if_pos hs, if_pos hemp] at he
        obtain ⟨ms₁, hmem, hcase⟩ := ih he
        exact ⟨ms₁, List.mem_cons_of_mem _ hmem, hcase⟩
      · simp only [disconnectState, if_pos hs, if_neg hemp] at he
        rcases List.mem_cons.mp he with he | he
        · refine ⟨ms₀, ?_, Or.inr ⟨hs, ?_, ?_⟩⟩
          · rw [he]
            simp
          · rw [he]
          · rw [he]
            exact hemp
        · obtain ⟨ms₁, hmem, hcase⟩ := ih he
          exact ⟨ms₁, List.mem_cons_of_mem _ hmem, hcase⟩
    · simp only [disconnectState, if_neg hs] at he
      rcases List.mem_cons.mp he with he | he
      · refine ⟨ms₀, ?_, Or.inl ⟨hs, ?_⟩⟩
        · rw [he]
          simp
        · rw [he]
      · obtain ⟨ms₁, hmem, hcase⟩ := ih he
        exact ⟨ms₁, List.mem_cons_of_mem _ hmem, hcase⟩

theorem WF_disconnectState {st : ServerState} (h : WF st) (s : SId) :
    WF (disconnectState st s) := by
  obtain ⟨hk, hm⟩ := h
  constructor
  · exact (keys_disconnectState_sublist st s).nodup hk
  · intro e he
    obtain ⟨ms₀, hmem, hcase⟩ := mem_disconnectState he
    have hms₀ := hm (e.1, ms₀) hmem
    rcases hcase with ⟨_, h2⟩ | ⟨_, h2, h3⟩
    · rw [h2]
      exact hms₀
    · exact ⟨h3, h2 ▸ hms₀.2.erase s⟩

theorem WF_stepState {st : ServerState} (h : WF st) (e : SrvEvent) :
    WF (stepState st e) := by
  cases e with
  | join s r => exact WF_joinRoom h s r
  | disconnect s => exact WF_disconnectState h s

theorem WF_runFrom {st : ServerState} (h : WF st) (evs : List SrvEvent) :
    WF (runFrom st evs) := by
  induction evs generalizing st with
  | nil => exact h
  | cons e rest ih => exact ih (WF_stepState h e)

theorem WF_runServer (evs : List SrvEvent) : WF (runServer evs) :=
  WF_runFrom WF_empty evs

theorem membersOf_nodup {st : ServerState} (h : WF st) (r : RoomId) :
    (membersOf st r).Nodup := by
  cases hfind : findRoom st r with
  | none => simp [membersOf, hfind]
  | some ms =>
    have hmem := h.2 (r, ms) (findRoom_mem hfind)
    simpa [membersOf, hfind] using hmem.2

theorem mem_addMember (ms : List SId) (s a : SId) :
    a ∈ addMember ms s ↔ a ∈ ms ∨ a = s := by
  unfold addMember
  by_cases hs : s ∈ ms
  · simp only [if_pos hs]
    constructor
    · exact Or.inl
    · rintro (h | rfl)
      · exact h
      · exact hs
  · simp [hs]

theorem mem_membersOf_stepState {st : ServerState} (hwf : WF st)
    (e : SrvEvent) (s : SId) (r : RoomId) :
    s ∈ membersOf (stepState st e) r
      ↔ (match e with
         | .join s' r' => (s' = s ∧ r' = r) ∨ s ∈ membersOf st r
         | .disconnect s' => s' ≠ s ∧ s ∈ membersOf st r) := by
  cases e with
  | join s' r' =>
    show s ∈ membersOf (joinRoom st s' r') r ↔ _
    rw [membersOf_joinRoom]
    by_cases hr : r = r'
    · subst hr
      rw [if_pos rfl, mem_addMember]
      constructor
      · rintro (h | rfl)
        · exact Or.inr h
        · exact Or.inl ⟨rfl, rfl⟩
      · rintro (⟨rfl, _⟩ | h)
        · exact Or.inr rfl
        · exact Or.inl h
    · rw [if_neg hr]
      constructor
      · exact Or.inr
      · rintro (⟨_, hrr⟩ | h)
        · exact absurd hrr.symm hr
        · exact h
  | disconnect s' =>
    show s ∈ membersOf (disconnectState st s') r ↔ _
    rw [membersOf_disconnectState s' r hwf.1]
    by_cases hs : s' = s
    · subst hs
      simp [(membersOf_nodup hwf r).mem_erase_iff]
    · simp [hs, List.mem_erase_of_ne (Ne.symm hs)]

theorem membersOf_runFrom_iff (evs : List SrvEvent) (st : ServerState)
    (b : Bool) (s : SId) (r : RoomId) (hwf : WF st)
    (hb : s ∈ membersOf st r ↔ b = true) :
    (s ∈ membersOf (runFrom st evs) r ↔ memberSpecFrom b evs s r = true) := by
  induction evs generalizing st b with
  | nil => exact hb
  | cons e rest ih =>
    have hwf' := WF_stepState hwf e
    cases e with
    | join s' r' =>
      refine ih (stepState st (.join s' r')) _ hwf' ?_
      rw [mem_membersOf_stepState hwf (.join s' r') s r]
      by_cases hc : s' = s ∧ r' = r
      · simp [hc]
      · simp [hc, hb]
    | disconnect s' =>
      refine ih (stepState st (.disconnect s')) _ hwf' ?_
      rw [mem_membersOf_stepState hwf (.disconnect s') s r]
      by_cases hc : s' = s
      · simp [hc]
      · simp [hc, hb]

theorem membersOf_runServer_iff (evs : List SrvEvent) (s : SId) (r : RoomId) :
    s ∈ membersOf (runServer evs) r ↔ memberSpec evs s r = true :=
  membersOf_runFrom_iff evs [] false s r WF_empty (by simp [membersOf, findRoom])

theorem joinRoom_of_mem {st : ServerState} {s : SId} {r : RoomId} {ms : List SId}
    (hfind : findRoom st r = some ms) (hs : s ∈ ms) : joinRoom st s r = st := by
  induction st with
  | nil => simp [findRoom] at hfind
  | cons e rest ih =>
    obtain ⟨r₀, ms₀⟩ := e
    by_cases h0 : r₀ = r
    · subst h0
      have hms : ms₀ = ms := by simpa [findRoom] using hfind
      subst hms
      simp [joinRoom, addMember, hs]
    · simp [findRoom, h0] at hfind
      simp [joinRoom, h0, ih hfind]

theorem filter_addMember (ms : List SId) (s : SId) :
    (addMember ms s).filter (fun m => m != s) = ms.filter (fun m => m != s) := by
  unfold addMember
  by_cases hs : s ∈ ms
  · simp [hs]
  · simp [hs, List.filter_append]

theorem mem_relayOut {α : Type} (st : ServerState) (s : SId) (r : RoomId)
    (k : MsgKind) (p : α) (m : SId) (msg : OutMsg α) :
    (m, msg) ∈ relayOut st s r k p
      ↔ (m ∈ membersOf st r ∧ m ≠ s ∧ msg = OutMsg.relayed k p) := by
  constructor
  · intro h
    obtain ⟨a, ha, he⟩ := List.mem_map.mp h
    obtain ⟨hmem, hne⟩ := List.mem_filter.mp ha
    rw [Prod.mk.injEq] at he
    obtain ⟨h1, h2⟩ := he
    subst h1
    exact ⟨hmem, by simpa using hne, h2.symm⟩
  · rintro ⟨hmem, hne, rfl⟩
    exact List.mem_map.mpr ⟨m, List.mem_filter.mpr ⟨hmem, by simpa using hne⟩, rfl⟩

theorem mem_joinNotifs {α : Type} (st : ServerState) (s : SId) (r : RoomId)
    (m : SId) (msg : OutMsg α) :
    (m, msg) ∈ joinNotifs α st s r
      ↔ (m ∈ membersOf st r ∧ m ≠ s ∧ msg = OutMsg.peerJoined s) := by
  unfold joinNotifs
  rw [membersOf_joinRoom, if_pos rfl, filter_addMember]
  constructor
  · intro h
    obtain ⟨a, ha, he⟩ := List.mem_map.mp h
    obtain ⟨hmem, hne⟩ := List.mem_filter.mp ha
    rw [Prod.mk.injEq] at he
    obtain ⟨h1, h2⟩ := he
    subst h1
    exact ⟨hmem, by simpa using hne, h2.symm⟩
  · rintro ⟨hmem, hne, rfl⟩
    exact List.mem_map.mpr ⟨m, List.mem_filter.mpr ⟨hmem, by simpa using hne⟩, rfl⟩

theorem mem_disconnectNotifs_of {α : Type} {st : ServerState} {s : SId}
    {r : RoomId} {ms : List SId} (hfind : findRoom st r = some ms)
    (hs : s ∈ ms) {m : SId} (hm : m ∈ ms.erase s) :
    (m, OutMsg.peerLeft s) ∈ disconnectNotifs α st s := by
  induction st with
  | nil => simp [findRoom] at hfind
  | cons e rest ih =>
    obtain ⟨r₀, ms₀⟩ := e
    by_cases h0 : r₀ = r
    · subst h0
      have hms : ms₀ = ms := by simpa [findRoom] using hfind
      subst hms
      simp only [disconnectNotifs, if_pos hs]
      exact List.mem_append_left _ (List.mem_map.mpr ⟨m, hm, rfl⟩)
    · simp [findRoom, h0] at hfind
      by_cases hs0 : s ∈ ms₀
      · simp only [disconnectNotifs, if_pos hs0]
        exact List.mem_append_right _ (ih hfind)
      · simp only [disconnectNotifs, if_neg hs0]
        exact ih hfind

theorem length_filter_ne_of_nodup {l : List SId} (h : l.Nodup) {s : SId}
    (hs : s ∈ l) : (l.filter (fun m => m != s)).length = l.length - 1 := by
  induction l with
  | nil => simp at hs
  | cons a rest ih =>
    rw [List.nodup_cons] at h
    rcases List.mem_cons.mp hs with rfl | hs'
    · have hrest : rest.filter (fun m => m != s) = rest := by
        apply List.filter_eq_self.mpr
        intro b hb
        simp only [bne_iff_ne, ne_eq, decide_eq_true_eq]
        intro he
        subst he
        exact h.1 hb
      simp [hrest]
    · have ha : a ≠ s := fun he => h.1 (he ▸ hs')
      have h1 := ih h.2 hs'
      have h2 : 1 ≤ rest.length := List.length_pos.mpr (List.ne_nil_of_mem hs')
      have hcons : (a :: rest).filter (fun m => m != s)
          = a :: rest.filter (fun m => m != s) := by
        simp [List.filter_cons, ha]
      rw [hcons]
      simp only [List.length_cons]
      omega

theorem dv_applied_inv (C : Type) (st : PeerState C) (evs : List (DVEvent C))
    (h : st.remoteDescSet = false → st.applied = []) :
    (evs.foldl dvStep st).remoteDescSet = false
      → (evs.foldl dvStep st).applied = [] := by
  induction evs generalizing st with
  | nil => exact h
  | cons e rest ih =>
    refine ih (dvStep st e) ?_
    cases e with
    | joinClick => simpa [dvStep] using h
    | recvOffer => simp [dvStep]
    | recvAnswer =>
      by_cases hc : st.pcInit = true ∧ st.localOfferPending = true
      · simp [dvStep, hc]
      · simpa [dvStep, hc] using h
    | recvCandidate c =>
      by_cases hc : st.pcInit = true ∧ st.remoteDescSet = true
      · simp [dvStep, hc]
      · simpa [dvStep, hc] using h

theorem mc_applied_inv (C : Type) (st : PeerState C) (evs : List (MCEvent C))
    (h : st.remoteDescSet = false → st.applied = []) :
    (evs.foldl mcStep st).remoteDescSet = false
      → (evs.foldl mcStep st).applied = [] := by
  induction evs generalizing st with
  | nil => exact h
  | cons e rest ih =>
    refine ih (mcStep st e) ?_
    cases e with
    | startCamera => simpa [mcStep] using h
    | sendOffer =>
      by_cases hc : st.pcInit = true
      · simpa [mcStep, hc] using h
      · simpa [mcStep, hc] using h
    | recvAnswer =>
      by_cases hc : st.pcInit = true ∧ st.localOfferPending = true
      · simp [mcStep, hc]
      · simpa [mcStep, hc] using h
    | recvCandidate c =>
      by_cases hc : st.pcInit = true ∧ st.remoteDescSet = true
      · simp [mcStep, hc]
      · simpa [mcStep, hc] using h

theorem dv_buffer_inv (C : Type) (st : PeerState C) (evs : List (DVEvent C))
    (h1 : st.localOfferPending = false)
    (h2 : st.remoteDescSet = true → st.pcInit = true ∧ st.buffer = []) :
    (evs.foldl dvStep st).localOfferPending = false
    ∧ ((evs.foldl dvStep st).remoteDescSet = true
        → (evs.foldl dvStep st).pcInit = true ∧ (evs.foldl dvStep st).buffer = []) := by
  induction evs generalizing st with
  | nil => exact ⟨h1, h2⟩
  | cons e rest ih =>
    refine ih (dvStep st e) ?_ ?_
    · cases e with
      | joinClick => simpa [dvStep] using h1
      | recvOffer =>
        simp only [dvStep]
        exact h1
      | recvAnswer =>
        by_cases hc : st.pcInit = true ∧ st.localOfferPending = true
        · rw [h1] at hc
          simp at hc
        · simpa [dvStep, hc] using h1
      | recvCandidate c =>
        by_cases hc : st.pcInit = true ∧ st.remoteDescSet = true
        · simpa [dvStep, hc] using h1
        · simpa [dvStep, hc] using h1
    · cases e with
      | joinClick =>
        intro hrd
        simp only [dvStep] at hrd ⊢
        exact ⟨trivial, (h2 hrd).2⟩
      | recvOffer => simp [dvStep]
      | recvAnswer =>
        by_cases hc : st.pcInit = true ∧ st.localOfferPending = true
        · rw [h1] at hc
          simp at hc
        · simpa [dvStep, hc] using h2
      | recvCandidate c =>
        by_cases hc : st.pcInit = true ∧ st.remoteDescSet = true
        · intro _
          simp only [dvStep, if_pos hc]
          exact ⟨hc.1, (h2 hc.2).2⟩
        · intro hrd
          simp only [dvStep, if_neg hc] at hrd ⊢
          exact absurd ⟨(h2 hrd).1, hrd⟩ hc

theorem mc_buffer_inv (C : Type) (st : PeerState C) (evs : List (MCEvent C))
    (h2 : st.remoteDescSet = true → st.pcInit = true ∧ st.buffer = []) :
    (evs.foldl mcStep st).remoteDescSet = true
      → (evs.foldl mcStep st).pcInit = true ∧ (evs.foldl mcStep st).buffer = [] := by
  induction evs generalizing st with
  | nil => exact h2
  | cons e rest ih =>
    refine ih (mcStep st e) ?_
    cases e with
    | startCamera =>
      intro hrd
      simp only [mcStep] at hrd ⊢
      exact ⟨trivial, (h2 hrd).2⟩
    | sendOffer =>
      by_cases hc : st.pcInit = true
      · intro hrd
        simp only [mcStep, if_pos hc] at hrd ⊢
        exact h2 hrd
      · simpa [mcStep, hc] using h2
    | recvAnswer =>
      by_cases hc : st.pcInit = true ∧ st.localOfferPending = true
      · intro _
        simp only [mcStep, if_pos hc]
        exact ⟨hc.1, trivial⟩
      · simpa [mcStep, hc] using h2
    | recvCandidate c =>
      by_cases hc : st.pcInit = true ∧ st.remoteDescSet = true
      · intro _
        simp only [mcStep, if_pos hc]
        exact ⟨hc.1, (h2 hc.2).2⟩
      · intro hrd
        simp only [mcStep, if_neg hc] at hrd ⊢
        exact absurd ⟨(h2 hrd).1, hrd⟩ hc

theorem dv_candidates_queue (C : Type) (st : PeerState C) (cs : List C)
    (hrd : st.remoteDescSet = false) :
    (cs.map DVEvent.recvCandidate).foldl dvStep st
      = { st with buffer := st.buffer ++ cs } := by
  induction cs generalizing st with
  | nil => simp
  | cons c rest ih =>
    simp only [List.map_cons, List.foldl_cons]
    have hstep : dvStep st (DVEvent.recvCandidate c)
        = { st with buffer := st.buffer ++ [c] } := by
      simp [dvStep, hrd]
    rw [hstep, ih { st with buffer := st.buffer ++ [c] } hrd]
    simp

theorem mc_candidates_queue (C : Type) (st : PeerState C) (cs : List C)
    (hrd : st.remoteDescSet = false) :
    (cs.map MCEvent.recvCandidate).foldl mcStep st
      = { st with buffer := st.buffer ++ cs } := by
  induction cs generalizing st with
  | nil => simp
  | cons c rest ih =>
    simp only [List.map_cons, List.foldl_cons]
    have hstep : mcStep st (MCEvent.recvCandidate c)
        = { st with buffer := st.buffer ++ [c] } := by
      simp [mcStep, hrd]
    rw [hstep, ih { st with buffer := st.buffer ++ [c] } hrd]
    simp

/-- C3: over every sequence of join and leave/disconnect operations, a room
key is present in the coordinator's room map (hence in `roomSnapshot`) iff
its member count is at least 1; the first join of a room creates it within
that same operation, and the removal of its last member deletes it within
that same operation. -/
theorem c3_room_lifecycle :
    (∀ evs r, (∃ n, (r, n) ∈ roomSnapshot (runServer evs))
        ↔ 1 ≤ (membersOf (runServer evs) r).length)
    ∧ (∀ (st : ServerState) (s : SId) (r : RoomId),
        findRoom (joinRoom st s r) r = some (addMember (membersOf st r) s))
    ∧ (∀ evs (s : SId) (r : RoomId), membersOf (runServer evs) r = [s] →
        findRoom (disconnectState (runServer evs) s) r = none) := by
  refine ⟨?_, ?_, ?_⟩
  · intro evs r
    have hwf := WF_runServer evs
    constructor
    · rintro ⟨n, hn⟩
      obtain ⟨e, he, heq⟩ := List.mem_map.mp hn
      rw [Prod.mk.injEq] at heq
      obtain ⟨h1, _⟩ := heq
      have hfind : findRoom (runServer evs) r = some e.2 := by
        apply mem_findRoom_of_keysNodup hwf.1
        rw [← h1]
        exact he
      have hne := (hwf.2 e he).1
      rw [membersOf, hfind]
      simpa using List.length_pos.mpr hne
    · intro hlen
      cases hfind : findRoom (runServer evs) r with
      | none =>
        rw [membersOf, hfind] at hlen
        simp at hlen
      | some ms =>
        exact ⟨ms.length, List.mem_map.mpr ⟨(r, ms), findRoom_mem hfind, rfl⟩⟩
  · intro st s r
    rw [findRoom_joinRoom]
    simp
  · intro evs s r hms
    have hwf := WF_runServer evs
    have hfind : findRoom (runServer evs) r = some [s] := by
      rw [membersOf] at hms
      cases hfind : findRoom (runServer evs) r with
      | none =>
        rw [hfind] at hms
        simp at hms
      | some ms =>
        rw [hfind] at hms
        simp at hms
        rw [hms]
    rw [findRoom_disconnectState s r hwf.1, hfind]
    simp

theorem c3_witness :
    membersOf (runServer [SrvEvent.join 1 "AB12CD"]) "AB12CD" = [1]
    ∧ findRoom (disconnectState (runServer [SrvEvent.join 1 "AB12CD"]) 1) "AB12CD" = none :=
  ⟨by decide, c3_room_lifecycle.2.2 [SrvEvent.join 1 "AB12CD"] 1 "AB12CD" (by decide)⟩

/-- C7: a room's member set equals exactly the participants that have joined
it and not subsequently disconnected; join is idempotent on the whole state
when the participant is already a member; join notifies exactly the other
current members with a peer-joined event carrying the new participant's
identity, and the joiner receives no such event. -/
theorem c7_member_set_exact :
    (∀ evs (s : SId) (r : RoomId),
        s ∈ membersOf (runServer evs) r ↔ memberSpec evs s r = true)
    ∧ (∀ (st : ServerState) (s : SId) (r : RoomId) (ms : List SId),
        findRoom st r = some ms → s ∈ ms → joinRoom st s r = st)
    ∧ (∀ (α : Type) (st : ServerState) (s : SId) (r : RoomId) (m : SId)
        (msg : OutMsg α),
        (m, msg) ∈ joinNotifs α st s r
          ↔ (m ∈ membersOf st r ∧ m ≠ s ∧ msg = OutMsg.peerJoined s)) := by
  refine ⟨membersOf_runServer_iff, ?_, ?_⟩
  · intro st s r ms hfind hs
    exact joinRoom_of_mem hfind hs
  · intro α st s r m msg
    exact mem_joinNotifs st s r m msg

theorem c7_witness :
    ((1 : SId) ∈ membersOf (runServer [SrvEvent.join 1 "R", SrvEvent.disconnect 1]) "R"
       ↔ memberSpec [SrvEvent.join 1 "R", SrvEvent.disconnect 1] 1 "R" = true)
    ∧ joinRoom [("R", [1, 2])] 1 "R" = [("R", [1, 2])]
    ∧ ((2, (OutMsg.peerJoined 1 : OutMsg Nat)) ∈ joinNotifs Nat [("R", [2])] 1 "R"
       ↔ ((2 : SId) ∈ membersOf [("R", [2])] "R" ∧ (2 : SId) ≠ 1
            ∧ (OutMsg.peerJoined 1 : OutMsg Nat) = OutMsg.peerJoined 1)) :=
  ⟨c7_member_set_exact.1 [SrvEvent.join 1 "R", SrvEvent.disconnect 1] 1 "R",
   c7_member_set_exact.2.1 [("R", [1, 2])] 1 "R" [1, 2] (by decide) (by decide),
   c7_member_set_exact.2.2 Nat [("R", [2])] 1 "R" 2 (OutMsg.peerJoined 1)⟩

/-- C6: when a participant's transport drops, the coordinator removes it
from every room; for each room it was in, if the room becomes empty it is
deleted, and otherwise every remaining member receives a peer-left event
carrying the departed participant's identity. -/
theorem c6_disconnect_cleanup (st : ServerState) (hwf : WF st) (s : SId) :
    (∀ r, s ∉ membersOf (disconnectState st s) r)
    ∧ (∀ (r : RoomId) (ms : List SId), findRoom st r = some ms → s ∈ ms →
        (ms.erase s = [] → findRoom (disconnectState st s) r = none)
        ∧ (ms.erase s ≠ [] →
            findRoom (disconnectState st s) r = some (ms.erase s)
            ∧ ∀ (α : Type), ∀ m ∈ ms.erase s,
                (m, OutMsg.peerLeft s) ∈ disconnectNotifs α st s)) := by
  constructor
  · intro r hmem
    rw [membersOf_disconnectState s r hwf.1] at hmem
    exact (((membersOf_nodup hwf r).mem_erase_iff).mp hmem).1 rfl
  · intro r ms hfind hs
    constructor
    · intro he
      rw [findRoom_disconnectState s r hwf.1, hfind]
      simp [hs, he]
    · intro he
      refine ⟨?_, ?_⟩
      · rw [findRoom_disconnectState s r hwf.1, hfind]
        simp [hs, he]
      · intro α m hm
        exact mem_disconnectNotifs_of hfind hs hm

theorem c6_witness :
    (1 : SId) ∉ membersOf (disconnectState [("R", [1, 2])] 1) "R"
    ∧ findRoom (disconnectState [("R", [1, 2])] 1) "R" = some [2]
    ∧ (2, (OutMsg.peerLeft 1 : OutMsg Nat)) ∈ disconnectNotifs Nat [("R", [1, 2])] 1 := by
  have hwf : WF [("R", [1, 2])] := by
    constructor
    · decide
    · decide
  refine ⟨(c6_disconnect_cleanup [("R", [1, 2])] hwf 1).1 "R", ?_, ?_⟩
  · exact (((c6_disconnect_cleanup [("R", [1, 2])] hwf 1).2 "R" [1, 2]
      (by decide) (by decide)).2 (by decide)).1
  · exact (((c6_disconnect_cleanup [("R", [1, 2])] hwf 1).2 "R" [1, 2]
      (by decide) (by decide)).2 (by decide)).2 Nat 2 (by decide)

/-- C5: a relay sent by a member of room `r` with `N` other members is
delivered to exactly those `N` members with the payload unchanged, and is
never delivered back to the sender. -/
theorem c5_relay_to_others (α : Type) (st : ServerState) (s : SId)
    (r : RoomId) (k : MsgKind) (p : α) (hs : s ∈ membersOf st r)
    (hnd : (membersOf st r).Nodup) :
    (∀ m msg, (m, msg) ∈ relayOut st s r k p
        ↔ (m ∈ membersOf st r ∧ m ≠ s ∧ msg = OutMsg.relayed k p))
    ∧ (relayOut st s r k p).length = (membersOf st r).length - 1
    ∧ (∀ msg, (s, msg) ∉ relayOut st s r k p) := by
  refine ⟨fun m msg => mem_relayOut st s r k p m msg, ?_, ?_⟩
  · unfold relayOut
    rw [List.length_map]
    exact length_filter_ne_of_nodup hnd hs
  · intro msg hmem
    exact ((mem_relayOut st s r k p s msg).mp hmem).2.1 rfl

theorem c5_witness :
    (relayOut [("R", [1, 2, 3])] 1 "R" MsgKind.offer (9 : Nat)).length
      = (membersOf [("R", [1, 2, 3])] "R").length - 1
    ∧ ((2, (OutMsg.relayed MsgKind.offer 9 : OutMsg Nat))
        ∈ relayOut [("R", [1, 2, 3])] 1 "R" MsgKind.offer 9
       ↔ ((2 : SId) ∈ membersOf [("R", [1, 2, 3])] "R" ∧ (2 : SId) ≠ 1
            ∧ (OutMsg.relayed MsgKind.offer 9 : OutMsg Nat)
                = OutMsg.relayed MsgKind.offer 9)) :=
  ⟨(c5_relay_to_others Nat [("R", [1, 2, 3])] 1 "R" MsgKind.offer 9
      (by decide) (by decide)).2.1,
   (c5_relay_to_others Nat [("R", [1, 2, 3])] 1 "R" MsgKind.offer 9
      (by decide) (by decide)).1 2 (OutMsg.relayed MsgKind.offer 9)⟩

/-- C2 counterexample: participant 3 never joined room "ZZ99ZZ", which holds
members 1 and 2; a relay sent by 3 for that room is delivered to both
members, so a relay by a non-member of a non-empty room is not a silent
no-op (the code broadcasts with `socket.to(roomId)` without checking the
sender's membership). -/
theorem c2_counterexample :
    (3 : SId) ∉ membersOf
        (runServer [SrvEvent.join 1 "ZZ99ZZ", SrvEvent.join 2 "ZZ99ZZ"]) "ZZ99ZZ"
    ∧ relayOut (runServer [SrvEvent.join 1 "ZZ99ZZ", SrvEvent.join 2 "ZZ99ZZ"])
        3 "ZZ99ZZ" MsgKind.answer (0 : Nat)
      = [(1, OutMsg.relayed MsgKind.answer 0), (2, OutMsg.relayed MsgKind.answer 0)] :=
  ⟨by decide, by decide⟩

/-- C2 (amended): a relay for room `r` from any sender — member or not — is
delivered to exactly the current members of `r` other than the sender, and
the sender never receives anything back (in particular no error); when the
room does not exist (e.g. was never joined, as in Scenario E), nothing is
delivered to anyone. -/
theorem c2_relay_best_effort (α : Type) (st : ServerState) (s : SId)
    (r : RoomId) (k : MsgKind) (p : α) :
    (∀ m msg, (m, msg) ∈ relayOut st s r k p
        ↔ (m ∈ membersOf st r ∧ m ≠ s ∧ msg = OutMsg.relayed k p))
    ∧ (∀ msg, (s, msg) ∉ relayOut st s r k p)
    ∧ (findRoom st r = none → relayOut st s r k p = []) := by
  refine ⟨fun m msg => mem_relayOut st s r k p m msg, ?_, ?_⟩
  · intro msg hmem
    exact ((mem_relayOut st s r k p s msg).mp hmem).2.1 rfl
  · intro hnone
    simp [relayOut, membersOf, hnone]

theorem c2_witness :
    findRoom (runServer [SrvEvent.join 1 "AB12CD"]) "ZZ99ZZ" = none
    ∧ relayOut (runServer [SrvEvent.join 1 "AB12CD"]) 2 "ZZ99ZZ"
        MsgKind.answer (0 : Nat) = [] :=
  ⟨by decide,
   (c2_relay_best_effort Nat (runServer [SrvEvent.join 1 "AB12CD"]) 2 "ZZ99ZZ"
      MsgKind.answer 0).2.2 (by decide)⟩

/-- C8 counterexample: the coordinator compares room codes verbatim, so the
codes "ab12cd" and "AB12CD", which differ only in letter case, denote two
distinct rooms; joiners of the two codes do not share a room and a relay
from one never reaches the other. -/
theorem c8_counterexample :
    membersOf (runServer [SrvEvent.join 1 "ab12cd", SrvEvent.join 2 "AB12CD"])
        "ab12cd" = [1]
    ∧ membersOf (runServer [SrvEvent.join 1 "ab12cd", SrvEvent.join 2 "AB12CD"])
        "AB12CD" = [2]
    ∧ relayOut (runServer [SrvEvent.join 1 "ab12cd", SrvEvent.join 2 "AB12CD"])
        1 "ab12cd" MsgKind.offer (0 : Nat) = [] :=
  ⟨by decide, by decide, by decide⟩

/-- C8 (amended): room codes are case-sensitive at the coordinator: any two
distinct code strings — in particular two codes differing only in letter
case — denote distinct rooms, and a relay addressed to one code is not
delivered to a participant who joined under the other.  (Case-insensitive
entry is approximated only in the UI, which uppercases typed codes.) -/
theorem c8_codes_verbatim (r1 r2 : RoomId) (h : r1 ≠ r2) (s1 s2 : SId) :
    membersOf (runServer [SrvEvent.join s1 r1, SrvEvent.join s2 r2]) r1 = [s1]
    ∧ membersOf (runServer [SrvEvent.join s1 r1, SrvEvent.join s2 r2]) r2 = [s2]
    ∧ (∀ (α : Type) (k : MsgKind) (p : α),
        relayOut (runServer [SrvEvent.join s1 r1, SrvEvent.join s2 r2]) s1 r1 k p
          = []) := by
  have hrun : runServer [SrvEvent.join s1 r1, SrvEvent.join s2 r2]
      = [(r1, [s1]), (r2, [s2])] := by
    simp [runServer, runFrom, stepState, joinRoom, h]
  refine ⟨?_, ?_, ?_⟩
  · rw [hrun]
    simp [membersOf, findRoom]
  · rw [hrun]
    simp [membersOf, findRoom, h]
  · intro α k p
    rw [hrun]
    simp [relayOut, membersOf, findRoom]

theorem c8_witness :
    membersOf (runServer [SrvEvent.join 1 "ab12cd", SrvEvent.join 2 "AB12CD"])
        "AB12CD" = [2] :=
  (c8_codes_verbatim "ab12cd" "AB12CD" (by decide) 1 2).2.1

/-- C9: relayed offer/answer/candidate messages carry only the payload —
their content is fully determined by the message kind and payload and is
identical whichever participant sent them — whereas peer-joined events
carry, and are determined by, the participant identity. -/
theorem c9_relay_carries_no_sender :
    (∀ (α : Type) (st : ServerState) (s : SId) (r : RoomId) (k : MsgKind)
        (p : α) (m : SId) (msg : OutMsg α),
        (m, msg) ∈ relayOut st s r k p → msg = OutMsg.relayed k p)
    ∧ (∀ (α : Type) (st : ServerState) (s1 s2 : SId) (r : RoomId) (k : MsgKind)
        (p : α) (m : SId) (msg1 msg2 : OutMsg α),
        (m, msg1) ∈ relayOut st s1 r k p → (m, msg2) ∈ relayOut st s2 r k p →
          msg1 = msg2)
    ∧ (∀ (α : Type) (st : ServerState) (s : SId) (r : RoomId) (m : SId)
        (msg : OutMsg α),
        (m, msg) ∈ joinNotifs α st s r → msg = OutMsg.peerJoined s)
    ∧ (∀ (α : Type) (s s' : SId),
        (OutMsg.peerJoined s : OutMsg α) = OutMsg.peerJoined s' → s = s') := by
  refine ⟨?_, ?_, ?_, ?_⟩
  · intro α st s r k p m msg h
    exact ((mem_relayOut st s r k p m msg).mp h).2.2
  · intro α st s1 s2 r k p m msg1 msg2 h1 h2
    rw [((mem_relayOut st s1 r k p m msg1).mp h1).2.2,
        ((mem_relayOut st s2 r k p m msg2).mp h2).2.2]
  · intro α st s r m msg h
    exact ((mem_joinNotifs st s r m msg).mp h).2.2
  · intro α s s' h
    exact OutMsg.peerJoined.inj h

theorem c9_witness :
    (OutMsg.relayed MsgKind.offer (5 : Nat)) = OutMsg.relayed MsgKind.offer 5
    ∧ (1 : SId) = 1 :=
  ⟨c9_relay_carries_no_sender.1 Nat [("R", [1, 2])] 1 "R" MsgKind.offer 5 2 _
      (by decide),
   c9_relay_carries_no_sender.2.2.2 Nat 1 1 rfl⟩

/-- C1 counterexample: the first `CameraCapture` variant (and
`WebRTCManager.handleIceCandidate`) hands a received candidate straight to
`addIceCandidate` whenever the peer connection exists, without consulting
the remote description and without any buffering: after starting the
camera and receiving candidate 7, the candidate has been passed to the
connection while the remote description is still unset, and no buffer
holds it. -/
theorem c1_counterexample :
    (ccRun Nat [CCEvent.startCamera, CCEvent.recvCandidate 7]).remoteDescSet = false
    ∧ (ccRun Nat [CCEvent.startCamera, CCEvent.recvCandidate 7]).applied = [7]
    ∧ (ccRun Nat [CCEvent.startCamera, CCEvent.recvCandidate 7]).buffer = [] :=
  ⟨rfl, rfl, rfl⟩

/-- C1 (amended): for the buffering Peer Session Clients — `DesktopViewer`
and the `CameraCapture` variants with a pending-candidate queue — no
received candidate is handed to the peer connection before the remote
description is set; over every event sequence, while the remote description
is unset nothing has been passed to `addIceCandidate` (earlier candidates
sit in the queue instead). -/
theorem c1_no_early_candidate (C : Type) :
    (∀ evs : List (DVEvent C),
        (dvRun C evs).remoteDescSet = false → (dvRun C evs).applied = [])
    ∧ (∀ evs : List (MCEvent C),
        (mcRun C evs).remoteDescSet = false → (mcRun C evs).applied = []) :=
  ⟨fun evs => dv_applied_inv C (initPeer C) evs (fun _ => rfl),
   fun evs => mc_applied_inv C (initPeer C) evs (fun _ => rfl)⟩

theorem c1_witness :
    (dvRun Nat [DVEvent.joinClick, DVEvent.recvCandidate 7]).remoteDescSet = false
    ∧ (dvRun Nat [DVEvent.joinClick, DVEvent.recvCandidate 7]).applied = []
    ∧ (mcRun Nat [MCEvent.startCamera, MCEvent.recvCandidate 7]).applied = [] :=
  ⟨rfl,
   (c1_no_early_candidate Nat).1 [DVEvent.joinClick, DVEvent.recvCandidate 7] rfl,
   (c1_no_early_candidate Nat).2 [MCEvent.startCamera, MCEvent.recvCandidate 7] rfl⟩

/-- C4: in the buffering clients, the handler that sets the remote
description (the desktop's offer handler, the mobile's answer handler)
replays all queued candidates into the connection in FIFO arrival order and
leaves the queue empty; consequently, at any point where the remote
description is set the queue is empty.  (The desktop's answer handler
cannot set the remote description: the desktop never creates an offer, so
`setRemoteDescription(answer)` always rejects and is caught.) -/
theorem c4_flush_fifo :
    (∀ (C : Type) (cs : List C),
        dvRun C (DVEvent.joinClick :: cs.map DVEvent.recvCandidate
            ++ [DVEvent.recvOffer])
          = ⟨true, false, true, [], cs⟩)
    ∧ (∀ (C : Type) (cs : List C),
        mcRun C (MCEvent.startCamera :: MCEvent.sendOffer
            :: cs.map MCEvent.recvCandidate ++ [MCEvent.recvAnswer])
          = ⟨true, true, true, [], cs⟩)
    ∧ (∀ (C : Type) (evs : List (DVEvent C)),
        (dvRun C evs).remoteDescSet = true → (dvRun C evs).buffer = [])
    ∧ (∀ (C : Type) (evs : List (MCEvent C)),
        (mcRun C evs).remoteDescSet = true → (mcRun C evs).buffer = []) := by
  refine ⟨?_, ?_, ?_, ?_⟩
  · intro C cs
    show ((DVEvent.joinClick :: cs.map DVEvent.recvCandidate)
        ++ [DVEvent.recvOffer]).foldl dvStep (initPeer C) = _
    rw [List.foldl_append]
    rw [show List.foldl dvStep (initPeer C)
          (DVEvent.joinClick :: cs.map DVEvent.recvCandidate)
        = List.foldl dvStep ⟨true, false, false, [], []⟩
            (cs.map DVEvent.recvCandidate) from rfl]
    rw [dv_candidates_queue C ⟨true, false, false, [], []⟩ cs rfl]
    simp [dvStep]
  · intro C cs
    show ((MCEvent.startCamera :: MCEvent.sendOffer
        :: cs.map MCEvent.recvCandidate) ++ [MCEvent.recvAnswer]).foldl mcStep
        (initPeer C) = _
    rw [List.foldl_append]
    rw [show List.foldl mcStep (initPeer C)
          (MCEvent.startCamera :: MCEvent.sendOffer
            :: cs.map MCEvent.recvCandidate)
        = List.foldl mcStep ⟨true, true, false, [], []⟩
            (cs.map MCEvent.recvCandidate) from rfl]
    rw [mc_candidates_queue C ⟨true, true, false, [], []⟩ cs rfl]
    simp [mcStep]
  · intro C evs hrd
    exact ((dv_buffer_inv C (initPeer C) evs rfl (fun h => nomatch h)).2 hrd).2
  · intro C evs hrd
    exact (mc_buffer_inv C (initPeer C) evs (fun h => nomatch h) hrd).2

theorem c4_witness :
    dvRun Nat (DVEvent.joinClick :: [(7 : Nat), 8, 9].map DVEvent.recvCandidate
        ++ [DVEvent.recvOffer])
      = ⟨true, false, true, [], [7, 8, 9]⟩
    ∧ (dvRun Nat [DVEvent.recvOffer]).buffer = []
    ∧ (mcRun Nat [MCEvent.startCamera, MCEvent.sendOffer, MCEvent.recvAnswer]).buffer
        = [] :=
  ⟨c4_flush_fifo.1 Nat [7, 8, 9],
   c4_flush_fifo.2.2.1 Nat [DVEvent.recvOffer] rfl,
   c4_flush_fifo.2.2.2 Nat [MCEvent.startCamera, MCEvent.sendOffer,
      MCEvent.recvAnswer] rfl⟩

/-- C10: for every process-frame request, the detection worker posts exactly
one response and never propagates an exception: an `error` message carrying
the frame's id when the model is not initialized, and otherwise a
`detection-result` that preserves the input `frame_id`, `capture_ts` and
`recv_ts` and whose detection list is empty when inference fails. -/
theorem c10_worker_single_response (I D : Type) (isInit : Bool)
    (outcome : Option (List D)) (now : Nat) (f : FrameIn I) :
    (onProcessFrame D isInit outcome now f).length = 1
    ∧ (isInit = false → onProcessFrame D isInit outcome now f
        = [WorkerMsg.workerError "Model not initialized. Call init first." f.frame_id])
    ∧ (isInit = true → onProcessFrame D isInit outcome now f
        = [WorkerMsg.detectionResult
            ⟨f.frame_id, f.capture_ts, f.recv_ts, now, outcome.getD []⟩])
    ∧ (outcome = none → isInit = true → onProcessFrame D isInit outcome now f
        = [WorkerMsg.detectionResult
            ⟨f.frame_id, f.capture_ts, f.recv_ts, now, []⟩]) := by
  cases isInit with
  | false =>
    refine ⟨rfl, fun _ => rfl, ?_, ?_⟩
    · intro h
      simp at h
    · intro _ h
      simp at h
  | true =>
    refine ⟨rfl, ?_, fun _ => rfl, ?_⟩
    · intro h
      simp at h
    · rintro rfl _
      rfl

theorem c10_witness :
    onProcessFrame Nat false none 5 (⟨"f1", 1, 2, 0⟩ : FrameIn Nat)
      = [WorkerMsg.workerError "Model not initialized. Call init first." "f1"]
    ∧ onProcessFrame Nat true none 5 (⟨"f1", 1, 2, 0⟩ : FrameIn Nat)
      = [WorkerMsg.detectionResult ⟨"f1", 1, 2, 5, []⟩] :=
  ⟨(c10_worker_single_response Nat Nat false none 5 ⟨"f1", 1, 2, 0⟩).2.1 rfl,
   (c10_worker_single_response Nat Nat true none 5 ⟨"f1", 1, 2, 0⟩).2.2.2 rfl rfl⟩
